import Mathlib

/-!
Verification of `creme/optim/lr_schedule.py`: three learning-rate schedules
(`ConstantLR`, `InverseScalingLR`, `OptimalLR`), each exposing a single
method `get(t)` computing a learning rate from an integer step.

Embedding choices:
* Python floats are idealised as real numbers `ℝ`; the claims are stated at
  the level of exact arithmetic, as is the spec.
* Python's binary `**` on an integer base and a real exponent is modelled by
  `pypow` below: for a nonzero base it is the principal complex power
  `Complex.cpow` (for a positive base this coincides with the real power
  `Real.rpow`, and for a negative base with a non-integer exponent Python
  indeed produces a complex number); `0 ** y` is `1` for `y = 0`, `0` for
  `y > 0`, and raises (`none`) for `y < 0`, exactly as Python does.
* Python's true division raises `ZeroDivisionError` on a zero denominator,
  so the fallible evaluators `getE` return `Option` values, with `none`
  standing for a raised arithmetic error.
* Each variant also has a state-passing `call` returning the result together
  with the post-call instance, translated from the method bodies, which read
  `self` but never assign to it.
-/

/-- A schedule that always returns the configured learning rate
(`ConstantLR` in the source). -/
structure ConstantLR where
  learning_rate : ℝ

/-- Translation of `ConstantLR.get`: `return self.learning_rate`. -/
def ConstantLR.get (s : ConstantLR) (_t : ℤ) : ℝ :=
  s.learning_rate

/-- State-passing form of `ConstantLR.get`: the body reads
`self.learning_rate` and performs no assignment, so the post-call instance
carries the same field values. -/
def ConstantLR.call (s : ConstantLR) (_t : ℤ) : ℝ × ConstantLR :=
  (s.learning_rate, { learning_rate := s.learning_rate })

/-- Model of Python `x ** y` for an integer `x` and a real `y`, as it occurs
in `InverseScalingLR.get`.  For `x ≠ 0` this is the principal complex power
(Python returns a complex number when `x < 0` and `y` is not an integer, and
the corresponding real value otherwise); `0 ** y` raises for `y < 0` and is
handled by `Complex.cpow`'s convention (`1` at `y = 0`, `0` at `y ≠ 0`)
otherwise, matching Python. -/
noncomputable def pypow (x : ℤ) (y : ℝ) : Option ℂ :=
  if x = 0 ∧ y < 0 then none else some ((x : ℂ) ^ (y : ℂ))

/-- A schedule with inverse-polynomial decay (`InverseScalingLR` in the
source); in Python `power` defaults to `0.5`. -/
structure InverseScalingLR where
  learning_rate : ℝ
  power : ℝ

/-- Translation of `InverseScalingLR.get` restricted to non-negative steps:
`self.learning_rate / (t + 1) ** self.power`, where the base `t + 1` is
positive so `**` is the real power `Real.rpow`. -/
noncomputable def InverseScalingLR.get (s : InverseScalingLR) (t : ℕ) : ℝ :=
  s.learning_rate / ((t : ℝ) + 1) ^ s.power

/-- Translation of `InverseScalingLR.get` on the full integer step domain:
`self.learning_rate / (t + 1) ** self.power` with Python's `**` (see
`pypow`) and fallible division (`none` models a raised
`ZeroDivisionError`). -/
noncomputable def InverseScalingLR.getE (s : InverseScalingLR) (t : ℤ) : Option ℂ :=
  (pypow (t + 1) s.power).bind fun d =>
    if d = 0 then none else some ((s.learning_rate : ℂ) / d)

/-- State-passing form of `InverseScalingLR.get`: the body reads fields and
performs no assignment. -/
noncomputable def InverseScalingLR.call (s : InverseScalingLR) (t : ℤ) :
    Option ℂ × InverseScalingLR :=
  (InverseScalingLR.getE { learning_rate := s.learning_rate, power := s.power } t,
    { learning_rate := s.learning_rate, power := s.power })

/-- The asymptotically optimal SGD schedule (`OptimalLR` in the source); in
Python `t0` defaults to `1000` and `alpha` to `1e-4`. -/
structure OptimalLR where
  t0 : ℝ
  alpha : ℝ

/-- Translation of `OptimalLR.get`: `1. / (self.alpha * (t + self.t0))`,
idealised as total real arithmetic. -/
noncomputable def OptimalLR.get (s : OptimalLR) (t : ℤ) : ℝ :=
  1 / (s.alpha * ((t : ℝ) + s.t0))

/-- Translation of `OptimalLR.get` with fallible division: Python raises
`ZeroDivisionError` (modelled by `none`) exactly when the denominator
`self.alpha * (t + self.t0)` is zero. -/
noncomputable def OptimalLR.getE (s : OptimalLR) (t : ℤ) : Option ℝ :=
  if s.alpha * ((t : ℝ) + s.t0) = 0 then none
  else some (1 / (s.alpha * ((t : ℝ) + s.t0)))

/-- State-passing form of `OptimalLR.get`: the body reads fields and
performs no assignment. -/
noncomputable def OptimalLR.call (s : OptimalLR) (t : ℤ) : Option ℝ × OptimalLR :=
  (OptimalLR.getE { t0 := s.t0, alpha := s.alpha } t, { t0 := s.t0, alpha := s.alpha })

/-- On a non-negative step the base `t + 1` is positive, `pypow` succeeds,
and the full fallible evaluator agrees with the real-valued one. -/
lemma InverseScalingLR.getE_natCast (s : InverseScalingLR) (n : ℕ) :
    s.getE (n : ℤ) = some ((s.get n : ℝ) : ℂ) := by
  have hpos : (0 : ℝ) < (n : ℝ) + 1 := by positivity
  have hbase : ((n : ℤ) + 1 : ℤ) ≠ 0 := by omega
  have hxne : (((n : ℤ) + 1 : ℤ) : ℂ) ≠ 0 := by exact_mod_cast hbase
  have hcast : (((n : ℤ) + 1 : ℤ) : ℂ) = (((n : ℝ) + 1 : ℝ) : ℂ) := by push_cast; ring
  have hcpow : (((n : ℤ) + 1 : ℤ) : ℂ) ^ (s.power : ℂ)
      = ((((n : ℝ) + 1) ^ s.power : ℝ) : ℂ) := by
    rw [hcast, ← Complex.ofReal_cpow hpos.le]
  have hdne : ((((n : ℝ) + 1) ^ s.power : ℝ) : ℂ) ≠ 0 := by
    exact_mod_cast (Real.rpow_pos_of_pos hpos s.power).ne'
  simp only [InverseScalingLR.getE, pypow]
  rw [if_neg (by simp [hbase]), Option.some_bind, hcpow, if_neg hdne,
    InverseScalingLR.get, Complex.ofReal_div]

/-- Python `0 ** y` raises for a negative exponent. -/
lemma pypow_zero_of_neg {y : ℝ} (hy : y < 0) : pypow 0 y = none := by
  rw [pypow, if_pos ⟨rfl, hy⟩]

/-- For a nonzero base Python `**` never raises and never returns zero. -/
lemma pypow_of_base_ne_zero {x : ℤ} (hx : x ≠ 0) (y : ℝ) :
    pypow x y = some ((x : ℂ) ^ (y : ℂ)) ∧ ((x : ℂ) ^ (y : ℂ)) ≠ 0 := by
  refine ⟨by rw [pypow, if_neg (by simp [hx])], ?_⟩
  rw [Ne, Complex.cpow_eq_zero_iff]
  push_neg
  intro h
  exact absurd (by exact_mod_cast h) hx

/-- Failure characterisation of `InverseScalingLR.get`: the division raises
exactly at step `-1` with a nonzero power (`0 ** p` is `0` for `p > 0`,
making the division raise, and `0 ** p` itself raises for `p < 0`; for
`p = 0` the denominator is `1`). -/
lemma InverseScalingLR.getE_eq_none_iff_inverse (s : InverseScalingLR) (t : ℤ) :
    s.getE t = none ↔ t = -1 ∧ s.power ≠ 0 := by
  constructor
  · intro h
    by_cases ht : t + 1 = 0
    · refine ⟨by omega, ?_⟩
      intro hp
      rw [InverseScalingLR.getE, ht, pypow, if_neg (by simp [hp]), hp] at h
      simp [Complex.cpow_zero] at h
    · obtain ⟨h1, h2⟩ := pypow_of_base_ne_zero ht s.power
      rw [InverseScalingLR.getE, h1, Option.some_bind, if_neg h2] at h
      exact absurd h (Option.some_ne_none _)
  · rintro ⟨rfl, hp⟩
    have ht : (-1 : ℤ) + 1 = 0 := by norm_num
    rcases lt_trichotomy s.power 0 with h | h | h
    · rw [InverseScalingLR.getE, ht, pypow_zero_of_neg h, Option.none_bind]
    · exact absurd h hp
    · have hps : ((s.power : ℝ) : ℂ) ≠ 0 := by exact_mod_cast hp
      rw [InverseScalingLR.getE, ht, pypow, if_neg (by simp [not_lt.mpr h.le])]
      simp [Complex.zero_cpow hps]

/-- Failure characterisation of `OptimalLR.get`: the division raises exactly
when the denominator `alpha * (t + t0)` is zero. -/
lemma OptimalLR.getE_eq_none_iff_optimal (s : OptimalLR) (t : ℤ) :
    s.getE t = none ↔ s.alpha * ((t : ℝ) + s.t0) = 0 := by
  rw [OptimalLR.getE]
  constructor
  · intro h
    by_contra hc
    rw [if_neg hc] at h
    exact absurd h (Option.some_ne_none _)
  · intro h
    rw [if_pos h]

/-- C1: for every non-negative integer step and all parameters `baseRate`
(`learning_rate`) and `power`, `InverseScalingLR(baseRate, power).get(step)`
equals `baseRate / (step + 1) ** power`; stated both for the real-valued
evaluator and for the full fallible evaluator, which succeeds with that
value. -/
theorem C1_inverse_scaling_formula (lr p : ℝ) (n : ℕ) :
    (InverseScalingLR.mk lr p).get n = lr / ((n : ℝ) + 1) ^ p ∧
    (InverseScalingLR.mk lr p).getE (n : ℤ) = some ((lr / ((n : ℝ) + 1) ^ p : ℝ) : ℂ) :=
  ⟨rfl, InverseScalingLR.getE_natCast (InverseScalingLR.mk lr p) n⟩

/-- C2: for every non-negative integer step and all parameters `t0` and
`alpha`, `OptimalLR(t0, alpha).get(step)` equals
`1 / (alpha * (step + t0))`. -/
theorem C2_optimal_formula (t0 a : ℝ) (n : ℕ) :
    (OptimalLR.mk t0 a).get (n : ℤ) = 1 / (a * ((n : ℝ) + t0)) := by
  rw [OptimalLR.get]
  norm_num

/-- C3: for every integer step and every rate `r`, `ConstantLR(r).get(step)`
returns the configured rate `r`, independent of the step. -/
theorem C3_constant_rate (r : ℝ) (t : ℤ) :
    (ConstantLR.mk r).get t = r :=
  rfl

/-- C4: for `alpha > 0`, `t0 > 0` and every non-negative integer step,
`OptimalLR(t0, alpha).get(step)` is strictly positive and strictly
decreasing in the step. -/
theorem C4_optimal_pos_strict_decreasing (t0 a : ℝ) (n : ℕ)
    (ha : 0 < a) (ht0 : 0 < t0) :
    0 < (OptimalLR.mk t0 a).get (n : ℤ) ∧
    (OptimalLR.mk t0 a).get ((n : ℤ) + 1) < (OptimalLR.mk t0 a).get (n : ℤ) := by
  have hden : (0 : ℝ) < a * ((n : ℝ) + t0) := by positivity
  constructor
  · rw [OptimalLR.get]
    push_cast
    positivity
  · rw [OptimalLR.get, OptimalLR.get]
    push_cast
    have hlt : a * ((n : ℝ) + t0) < a * ((n : ℝ) + 1 + t0) := by nlinarith
    exact one_div_lt_one_div_of_lt hden hlt

/-- Witness for C4 at `t0 = 1`, `alpha = 1`, `step = 0`. -/
theorem C4_witness :
    0 < (OptimalLR.mk 1 1).get ((0 : ℕ) : ℤ) ∧
    (OptimalLR.mk 1 1).get (((0 : ℕ) : ℤ) + 1) < (OptimalLR.mk 1 1).get ((0 : ℕ) : ℤ) :=
  C4_optimal_pos_strict_decreasing 1 1 0 (by norm_num) (by norm_num)

/-- C5: for `power > 0`, `baseRate > 0` and every non-negative integer step,
`InverseScalingLR(baseRate, power).get(step)` is strictly positive and
non-increasing in the step. -/
theorem C5_inverse_scaling_pos_nonincreasing (lr p : ℝ) (n : ℕ)
    (hp : 0 < p) (hlr : 0 < lr) :
    0 < (InverseScalingLR.mk lr p).get n ∧
    (InverseScalingLR.mk lr p).get (n + 1) ≤ (InverseScalingLR.mk lr p).get n := by
  have hb : (0 : ℝ) < (n : ℝ) + 1 := by positivity
  constructor
  · rw [InverseScalingLR.get]
    exact div_pos hlr (Real.rpow_pos_of_pos hb p)
  · rw [InverseScalingLR.get, InverseScalingLR.get]
    push_cast
    gcongr
    linarith

/-- Witness for C5 at `baseRate = 1`, `power = 1/2`, `step = 0`. -/
theorem C5_witness :
    0 < (InverseScalingLR.mk 1 (1/2)).get 0 ∧
    (InverseScalingLR.mk 1 (1/2)).get (0 + 1) ≤ (InverseScalingLR.mk 1 (1/2)).get 0 :=
  C5_inverse_scaling_pos_nonincreasing 1 (1/2) 0 (by norm_num) (by norm_num)

/-- C6: `OptimalLR.get` raises a division-by-zero error exactly when
`alpha * (step + t0) = 0`, and in particular
`OptimalLR(t0 = 0, alpha = 1e-4).get(0)` raises (no fallback value is
produced, as `none` carries no value). -/
theorem C6_optimal_division_by_zero :
    (∀ (t0 a : ℝ) (t : ℤ), (OptimalLR.mk t0 a).getE t = none ↔ a * ((t : ℝ) + t0) = 0) ∧
    (OptimalLR.mk 0 (1/10000)).getE 0 = none := by
  refine ⟨fun t0 a t => OptimalLR.getE_eq_none_iff_optimal (OptimalLR.mk t0 a) t, ?_⟩
  rw [OptimalLR.getE, if_pos (by norm_num)]

/-- C7 counterexample: `InverseScalingLR` with positive parameters
(`baseRate = 1`, `power = 1/2`) raises a division-by-zero error at step
`-1`, an integer step accepted by the interface, with no negative-parameter
overflow involved — contradicting the claim that arithmetic failure is
reachable in `InverseScalingLR` only under pathological negative
`power`/`baseRate` combinations. -/
theorem C7_counterexample :
    (InverseScalingLR.mk 1 (1/2)).getE (-1) = none :=
  (InverseScalingLR.getE_eq_none_iff_inverse (InverseScalingLR.mk 1 (1/2)) (-1)).mpr
    ⟨rfl, by norm_num⟩

/-- C7 amended: `ConstantLR.get` never fails (it is total and returns the
configured rate); `InverseScalingLR.get` raises a division-by-zero error
exactly at step `-1` with nonzero power, positive parameters included; and
`OptimalLR.get` raises exactly when `alpha * (step + t0) = 0`. -/
theorem C7_amended_failure_sites :
    (∀ (r : ℝ) (t : ℤ), (ConstantLR.mk r).get t = r) ∧
    (∀ (lr p : ℝ) (t : ℤ),
      (InverseScalingLR.mk lr p).getE t = none ↔ t = -1 ∧ p ≠ 0) ∧
    (∀ (t0 a : ℝ) (t : ℤ),
      (OptimalLR.mk t0 a).getE t = none ↔ a * ((t : ℝ) + t0) = 0) :=
  ⟨fun _ _ => rfl,
   fun lr p t => InverseScalingLR.getE_eq_none_iff_inverse (InverseScalingLR.mk lr p) t,
   fun t0 a t => OptimalLR.getE_eq_none_iff_optimal (OptimalLR.mk t0 a) t⟩

/-- C8: with `power = 0` the inverse-scaling schedule degenerates to the
constant schedule: for every integer step the fallible evaluator succeeds
with the configured rate `r`, the value `ConstantLR(r)` returns at that
step. -/
theorem C8_power_zero_degenerates (r : ℝ) (t : ℤ) :
    (InverseScalingLR.mk r 0).getE t = some (((ConstantLR.mk r).get t : ℝ) : ℂ) := by
  rw [InverseScalingLR.getE, pypow, if_neg (by norm_num)]
  rw [Option.some_bind]
  norm_num [ConstantLR.get]

/-- C9: for every variant, configuration and integer step, a call leaves the
instance fields unchanged (the post-call state equals the pre-call state)
and the returned value is the pure function of the configuration and the
step computed by `get`/`getE` — so two calls with the same configuration and
step return the same result. -/
theorem C9_pure_and_frame (c : ConstantLR) (i : InverseScalingLR) (o : OptimalLR) (t : ℤ) :
    ((c.call t).2 = c ∧ (c.call t).1 = c.get t) ∧
    ((i.call t).2 = i ∧ (i.call t).1 = i.getE t) ∧
    ((o.call t).2 = o ∧ (o.call t).1 = o.getE t) :=
  ⟨⟨rfl, rfl⟩, ⟨rfl, rfl⟩, ⟨rfl, rfl⟩⟩

/-- C10: for every step `≤ -2`, every non-integer power (the default `0.5`
included, see the witness) and every nonzero rate, `InverseScalingLR.get`
returns a value with nonzero imaginary part — a complex number, not a real
(float) one — because the base `step + 1` is negative and a negative base
raised to a fractional power is complex. -/
theorem C10_negative_step_complex_result (lr p : ℝ) (t : ℤ)
    (ht : t ≤ -2) (hp : ¬ ∃ m : ℤ, (m : ℝ) = p) (hlr : lr ≠ 0) :
    ∃ z : ℂ, (InverseScalingLR.mk lr p).getE t = some z ∧ z.im ≠ 0 := by
  have hx : t + 1 ≠ 0 := by omega
  obtain ⟨h1, h2⟩ := pypow_of_base_ne_zero hx p
  have hcne : ((t + 1 : ℤ) : ℂ) ≠ 0 := by exact_mod_cast hx
  have hxneg : ((t + 1 : ℤ) : ℝ) < 0 := by exact_mod_cast (by omega : t + 1 < 0)
  have hlog : (Complex.log ((t + 1 : ℤ) : ℂ)).im = Real.pi := by
    have hco : ((t + 1 : ℤ) : ℂ) = (((t + 1 : ℤ) : ℝ) : ℂ) := by push_cast; ring
    rw [hco, Complex.log_im, Complex.arg_ofReal_of_neg hxneg]
  have him : (((t + 1 : ℤ) : ℂ) ^ ((p : ℝ) : ℂ)).im
      = Real.exp ((Complex.log ((t + 1 : ℤ) : ℂ)).re * p) * Real.sin (Real.pi * p) := by
    rw [Complex.cpow_def_of_ne_zero hcne, Complex.exp_im, Complex.mul_re, Complex.mul_im]
    simp [hlog]
    rw [show ((t : ℂ) + 1) = ((t + 1 : ℤ) : ℂ) by push_cast; ring, hlog]
  have hsin : Real.sin (Real.pi * p) ≠ 0 := by
    intro h0
    rw [Real.sin_eq_zero_iff] at h0
    obtain ⟨m, hm⟩ := h0
    rw [mul_comm] at hm
    exact hp ⟨m, mul_left_cancel₀ Real.pi_ne_zero hm⟩
  have hwim : (((t + 1 : ℤ) : ℂ) ^ ((p : ℝ) : ℂ)).im ≠ 0 := by
    rw [him]
    exact mul_ne_zero (Real.exp_ne_zero _) hsin
  refine ⟨(lr : ℂ) / (((t + 1 : ℤ) : ℂ) ^ ((p : ℝ) : ℂ)), ?_, ?_⟩
  · rw [InverseScalingLR.getE, h1, Option.some_bind, if_neg h2]
  · rw [Complex.div_im]
    simp only [Complex.ofReal_im, Complex.ofReal_re, zero_mul, zero_div, zero_sub]
    have hns : Complex.normSq (((t + 1 : ℤ) : ℂ) ^ ((p : ℝ) : ℂ)) ≠ 0 := by
      rw [Ne, Complex.normSq_eq_zero]
      exact h2
    exact neg_ne_zero.mpr (div_ne_zero (mul_ne_zero hlr hwim) hns)

/-- Witness for C10 at `baseRate = 1`, the default `power = 1/2`, and step
`-2`: the schedule produces a value with nonzero imaginary part. -/
theorem C10_witness :
    ∃ z : ℂ, (InverseScalingLR.mk 1 (1/2)).getE (-2) = some z ∧ z.im ≠ 0 :=
  C10_negative_step_complex_result 1 (1/2) (-2) (by norm_num)
    (by
      rintro ⟨m, hm⟩
      have h1 : ((2 * m : ℤ) : ℝ) = ((1 : ℤ) : ℝ) := by push_cast; linarith
      have h2 : (2 * m : ℤ) = 1 := by exact_mod_cast h1
      omega)
    (by norm_num)
